import Mathlib

/-!
Verification of the ArrayMD library: the fixed-shape multi-dimensional array
`boost::container::array_md` with its chain-indexing engine
(`boost/utility/slice.hpp`), and the dynamically-shaped container adapter
`boost::container::multiarray`.

Part A embeds the fixed-shape array: the nested data block, the unchecked
(`slice`, `operator()`) and checked (`checked_slice`, `at`) access paths.
Part B embeds the adapter's index bookkeeping (`multiarray_indexed_base`):
extents, priorities, cached strides, the mutators with their validation,
and the `apply` traversal with its odometer index advance.
-/

set_option autoImplicit false

deriving instance DecidableEq for Except

namespace ArrayMD

/-- Error kinds raised by the checked accessors of `array_md`:
`wrongArity` stands for `std::length_error` ("Wrong number of indices"),
`outOfRange` for `std::out_of_range` ("Index out of bounds"). -/
inductive ArrErr : Type where
  | wrongArity
  | outOfRange
  deriving DecidableEq, Repr

/-- The nested C-style data block of `array_md<T, M, N...>`: `scalar` is a
single `T`, `arr` is a built-in array of sub-blocks.  The shape is kept
separate (see `hasShape`) because C++ nested-array types erase to this
structure at the value level. -/
inductive NArr (α : Type) : Type where
  | scalar : α → NArr α
  | arr : List (NArr α) → NArr α
  deriving Repr

mutual

/-- `t` is a nested array of the given extent list: a `scalar` for the empty
shape, and for shape `n :: ns` a `n`-element array whose members all have
shape `ns` (the layout `detail::append_extents<T, M, N...>` builds). -/
def NArr.hasShape {α : Type} : NArr α → List Nat → Bool
  | .scalar _, [] => true
  | .scalar _, _ :: _ => false
  | .arr _, [] => false
  | .arr xs, n :: ns => xs.length == n && allShape xs ns

/-- Every block in the list has shape `ns`. -/
def allShape {α : Type} : List (NArr α) → List Nat → Bool
  | [], _ => true
  | x :: xs, ns => x.hasShape ns && allShape xs ns

end

mutual

/-- `boost::slice` (slice.hpp): apply `operator []` serially for a list of
index expressions; the base case returns the base object.  Indexing a
built-in array out of bounds is undefined behaviour in the source, modelled
as `none`; likewise an indexing chain deeper than the nesting (which would
not compile in C++). -/
def slice {α : Type} : NArr α → List Nat → Option (NArr α)
  | t, [] => some t
  | .scalar _, _ :: _ => none
  | .arr xs, i :: is => sliceList xs i is

/-- One unchecked indexing step `t[i]` into a built-in array, then the rest
of the chain. -/
def sliceList {α : Type} : List (NArr α) → Nat → List Nat → Option (NArr α)
  | [], _, _ => none
  | x :: _, 0, is => slice x is
  | _ :: xs, j + 1, is => sliceList xs j is

end

mutual

/-- `boost::checked_slice` (slice.hpp): like `slice`, but each index is
compared against the extent `N` of the built-in array type first, and the
caller-supplied exception object is thrown on violation (indices are
`size_type`, i.e. unsigned, so only the `u >= N` test is live). -/
def checkedSlice {α : Type} : NArr α → List Nat → Except Unit (NArr α)
  | t, [] => .ok t
  | .scalar _, _ :: _ => .error ()
  | .arr xs, i :: is =>
      if i < xs.length then checkedSliceList xs i is else .error ()

/-- One checked indexing step (the bound test already passed), then the rest
of the chain. -/
def checkedSliceList {α : Type} : List (NArr α) → Nat → List Nat →
    Except Unit (NArr α)
  | [], _, _ => .error ()
  | x :: _, 0, is => checkedSlice x is
  | _ :: xs, j + 1, is => checkedSliceList xs j is

end

mutual

/-- Assignment through the reference returned by a full-depth access chain
(`arr(i0, ..., ik) = v`): functionally update the scalar at the given index
path. -/
def NArr.setPath {α : Type} : NArr α → List Nat → α → NArr α
  | .scalar _, [], v => .scalar v
  | .scalar a, _ :: _, _ => .scalar a
  | .arr xs, [], _ => .arr xs
  | .arr xs, i :: is, v => .arr (setList xs i is v)

/-- Update the `i`-th block of the list along the remaining path. -/
def setList {α : Type} : List (NArr α) → Nat → List Nat → α → List (NArr α)
  | [], _, _, _ => []
  | x :: xs, 0, is, v => x.setPath is v :: xs
  | x :: xs, j + 1, is, v => x :: setList xs j is v

end

mutual

/-- The linear element sequence `[ data(), data() + size() )`: the row-major
flattening that C/C++ array layout gives the nested data block. -/
def NArr.toList {α : Type} : NArr α → List α
  | .scalar a => [a]
  | .arr xs => toListAll xs

/-- Concatenated flattenings of all the blocks. -/
def toListAll {α : Type} : List (NArr α) → List α
  | [] => []
  | x :: xs => x.toList ++ toListAll xs

end

/-- `static_size`: the total number of elements, the product of all extents
(1 for rank 0). -/
def static_size (shape : List Nat) : Nat := shape.prod

/-- The row-major stride of dimension `k`: the product of the extents of all
later (less significant) dimensions. -/
def rmStride (shape : List Nat) (k : Nat) : Nat := (shape.drop (k + 1)).prod

/-- `offset = Σ_k i_k * stride_k` with row-major strides. -/
def rmOffset (shape is : List Nat) : Nat :=
  ((List.range is.length).map fun k => is.getD k 0 * rmStride shape k).sum

/-- The loop body of `array_md<T,M,N...>::at(std::initializer_list)`:
`stride /= *pfraction; if (ii >= *pfraction++) throw std::out_of_range;
start += stride * ii;`.  The arity was already checked, so the extent list
is never exhausted before the index list; the leftover case is vacuous. -/
def atLoop : List Nat → Nat → Nat → List Nat → Except ArrErr Nat
  | _, _, off, [] => .ok off
  | [], _, off, _ :: _ => .ok off
  | n :: ns, stride, off, i :: is =>
      if n ≤ i then .error .outOfRange
      else atLoop ns (stride / n) (off + stride / n * i) is

/-- `array_md<T,M,N...>::at(std::initializer_list)`: throws
`std::length_error` when the index count differs from `dimensionality`,
then walks the indices against `static_sizes`, throwing `std::out_of_range`
on a too-large index, and otherwise returns (the `data()` offset of) the
addressed element. -/
def array_md_at_list (shape is : List Nat) : Except ArrErr Nat :=
  if is.length ≠ shape.length then .error .wrongArity
  else atLoop shape (static_size shape) 0 is

/-- Outcome of a call whose C++ embedding can also hit undefined behaviour:
`ok` carries the `data()` offset of the returned reference, `raised` a
thrown exception, `undef` undefined behaviour (reading past the end of
`static_sizes`, or dereferencing outside the data block). -/
inductive CallOutcome : Type where
  | ok (offset : Nat)
  | raised (e : ArrErr)
  | undef
  deriving DecidableEq, Repr

/-- Whether the call reported an error by throwing. -/
def CallOutcome.isRaised : CallOutcome → Bool
  | .raised _ => true
  | _ => false

/-- The loop of `array_md<T,M,N...>::operator [](std::initializer_list)`
(which `operator ()(std::initializer_list)` forwards to): `stride /=
*pfraction++; start += stride * ii;` with no checks of any kind.  When the
supplied indices outnumber the extents the loop reads past the end of
`static_sizes` (undefined behaviour); the final `*start` is only defined
inside the data block. -/
def callLoop (sz : Nat) : List Nat → Nat → Nat → List Nat → CallOutcome
  | _, _, off, [] => if off < sz then .ok off else .undef
  | [], _, _, _ :: _ => .undef
  | n :: ns, stride, off, i :: is =>
      callLoop sz ns (stride / n) (off + stride / n * i) is

/-- `array_md<T,M,N...>::operator ()(std::initializer_list)`: unchecked
full-depth access through `operator [](std::initializer_list)`. -/
def array_md_call_list (shape is : List Nat) : CallOutcome :=
  callLoop (static_size shape) shape (static_size shape) 0 is

/-! The rank-0 base case `array_md<T>` (one element, no extents). -/

/-- `array_md<T>::dimensionality`. -/
def array0_dimensionality : Nat := 0

/-- `array_md<T>::static_size`. -/
def array0_static_size : Nat := 1

/-- `array_md<T>::size()`, which returns `static_size`. -/
def array0_size : Nat := array0_static_size

/-- `array_md<T>::empty()`, which returns `!size()`. -/
def array0_empty : Bool := array0_size == 0

/-- `array_md<T>::operator ()()`: whole-object access to the sole element. -/
def array0_call {α : Type} (x : α) : α := x

/-- `array_md<T>::at()` with no indices: nothing to check, returns the sole
element. -/
def array0_at0 {α : Type} (x : α) : α := x

/-- `array_md<T>::at(std::initializer_list)`: `if (i.size()) throw
std::length_error{"Too many indices"};` then returns the sole element. -/
def array0_at_list {α : Type} (x : α) (is : List Nat) : Except ArrErr α :=
  if is.length ≠ 0 then .error .wrongArity else .ok x

/-- Scenario A's array: `array_md<int, 2, 3>` aggregate-initialized with
`{2, 3, 5, 7, 11, 13}` in row-major order. -/
def scenarioA : NArr Nat :=
  .arr [.arr [.scalar 2, .scalar 3, .scalar 5],
        .arr [.scalar 7, .scalar 11, .scalar 13]]

/-! Structural lemmas about shapes, flattening and the indexing chains. -/

lemma allShape_getElem? {α : Type} (ns : List Nat) :
    ∀ (xs : List (NArr α)) (i : Nat) (x : NArr α),
      allShape xs ns = true → xs[i]? = some x → x.hasShape ns = true := by
  intro xs
  induction xs with
  | nil => intro i x _ hx; simp at hx
  | cons y ys ih =>
    intro i x hall hx
    rw [allShape, Bool.and_eq_true] at hall
    cases i with
    | zero => simp at hx; exact hx ▸ hall.1
    | succ j => exact ih j x hall.2 (by simpa using hx)

lemma toListAll_length {α : Type} (ns : List Nat)
    (hlen : ∀ x : NArr α, x.hasShape ns = true → x.toList.length = ns.prod) :
    ∀ xs : List (NArr α), allShape xs ns = true →
      (toListAll xs).length = xs.length * ns.prod := by
  intro xs
  induction xs with
  | nil => intro _; simp [toListAll]
  | cons y ys ih =>
    intro hall
    rw [allShape, Bool.and_eq_true] at hall
    rw [toListAll, List.length_append, hlen y hall.1, ih hall.2,
      List.length_cons]
    ring

lemma toList_length {α : Type} :
    ∀ (shape : List Nat) (t : NArr α),
      t.hasShape shape = true → t.toList.length = shape.prod := by
  intro shape
  induction shape with
  | nil =>
    intro t h
    cases t with
    | scalar a => simp [NArr.toList]
    | arr xs => rw [NArr.hasShape] at h; exact absurd h (by simp)
  | cons n ns ih =>
    intro t h
    cases t with
    | scalar a => rw [NArr.hasShape] at h; exact absurd h (by simp)
    | arr xs =>
      rw [NArr.hasShape, Bool.and_eq_true, beq_iff_eq] at h
      rw [NArr.toList, toListAll_length ns (fun x hx => ih x hx) xs h.2, h.1,
        List.prod_cons]

lemma sliceList_eq {α : Type} (is : List Nat) :
    ∀ (xs : List (NArr α)) (i : Nat),
      sliceList xs i is = (xs[i]?.map fun x => slice x is).getD none := by
  intro xs
  induction xs with
  | nil => intro i; simp [sliceList]
  | cons y ys ih =>
    intro i
    cases i with
    | zero => simp [sliceList]
    | succ j => simpa [sliceList] using ih j

lemma checkedSliceList_eq {α : Type} (is : List Nat) :
    ∀ (xs : List (NArr α)) (i : Nat),
      checkedSliceList xs i is =
        (xs[i]?.map fun x => checkedSlice x is).getD (.error ()) := by
  intro xs
  induction xs with
  | nil => intro i; simp [checkedSliceList]
  | cons y ys ih =>
    intro i
    cases i with
    | zero => simp [checkedSliceList]
    | succ j => simpa [checkedSliceList] using ih j

lemma setList_getElem?_self {α : Type} (is : List Nat) (v : α) :
    ∀ (xs : List (NArr α)) (i : Nat),
      (setList xs i is v)[i]? = xs[i]?.map fun x => x.setPath is v := by
  intro xs
  induction xs with
  | nil => intro i; simp [setList]
  | cons y ys ih =>
    intro i
    cases i with
    | zero => simp [setList]
    | succ j => simpa [setList] using ih j

lemma rmOffset_nil (shape : List Nat) : rmOffset shape [] = 0 := by
  simp [rmOffset]

lemma rmOffset_cons (n : Nat) (ns : List Nat) (i : Nat) (is : List Nat) :
    rmOffset (n :: ns) (i :: is) = i * ns.prod + rmOffset ns is := by
  rw [rmOffset, rmOffset, List.length_cons, List.range_succ_eq_map,
    List.map_cons, List.map_map, List.sum_cons]
  have h0 : (i :: is).getD 0 0 * rmStride (n :: ns) 0 = i * ns.prod := by
    simp [rmStride]
  rw [h0]
  congr 1

/-- An in-range full-rank index tuple has a row-major offset inside the
data block. -/
lemma rmOffset_lt :
    ∀ (shape is : List Nat), is.length = shape.length →
      (∀ k, k < is.length → is.getD k 0 < shape.getD k 0) →
      rmOffset shape is < shape.prod := by
  intro shape
  induction shape with
  | nil =>
    intro is hlen _
    rw [List.length_nil, List.length_eq_zero] at hlen
    subst hlen
    simp [rmOffset_nil]
  | cons n ns ih =>
    intro is hlen hbd
    cases is with
    | nil => simp at hlen
    | cons i is1 =>
      have hi : i < n := by simpa using hbd 0 (by simp)
      have h1 : rmOffset ns is1 < ns.prod := by
        refine ih is1 (by simpa using hlen) ?_
        intro k hk
        simpa using hbd (k + 1) (by simpa using Nat.succ_lt_succ hk)
      rw [rmOffset_cons, List.prod_cons]
      calc i * ns.prod + rmOffset ns is1 < i * ns.prod + ns.prod := by omega
        _ = (i + 1) * ns.prod := by ring
        _ ≤ n * ns.prod := Nat.mul_le_mul_right _ hi

/-- Full-depth unchecked access reads the element whose `data()`-order
position is the row-major offset. -/
lemma slice_eq_toList_getElem? {α : Type} :
    ∀ (shape : List Nat) (t : NArr α) (is : List Nat),
      t.hasShape shape = true → is.length = shape.length →
      (∀ k, k < is.length → is.getD k 0 < shape.getD k 0) →
      slice t is = (t.toList[rmOffset shape is]?).map NArr.scalar := by
  intro shape
  induction shape with
  | nil =>
    intro t is h hlen _
    rw [List.length_nil, List.length_eq_zero] at hlen
    subst hlen
    cases t with
    | scalar a => simp [slice, NArr.toList, rmOffset_nil]
    | arr xs => rw [NArr.hasShape] at h; exact absurd h (by simp)
  | cons n ns ih =>
    intro t is h hlen hbd
    cases t with
    | scalar a => rw [NArr.hasShape] at h; exact absurd h (by simp)
    | arr xs =>
      rw [NArr.hasShape, Bool.and_eq_true, beq_iff_eq] at h
      obtain ⟨hxl, hall⟩ := h
      cases is with
      | nil => simp at hlen
      | cons i is1 =>
        have hi : i < xs.length := by
          have := hbd 0 (by simp)
          simpa [hxl] using this
        obtain ⟨x, hx⟩ : ∃ x, xs[i]? = some x :=
          ⟨xs[i], List.getElem?_eq_getElem hi⟩
        have hxs : x.hasShape ns = true := allShape_getElem? ns xs i x hall hx
        have hlen1 : is1.length = ns.length := by simpa using hlen
        have hbd1 : ∀ k, k < is1.length → is1.getD k 0 < ns.getD k 0 := by
          intro k hk
          have := hbd (k + 1) (by simpa using Nat.succ_lt_succ hk)
          simpa using this
        rw [slice, sliceList_eq, hx, Option.map_some', Option.getD_some,
          ih x is1 hxs hlen1 hbd1, rmOffset_cons, NArr.toList]
        -- reduce the flattened lookup to the block of `x`
        have key : ∀ (ys : List (NArr α)) (j : Nat) (y : NArr α) (off : Nat),
            allShape ys ns = true → ys[j]? = some y → off < ns.prod →
            (toListAll ys)[j * ns.prod + off]? = y.toList[off]? := by
          intro ys
          induction ys with
          | nil => intro j y off _ hy _; simp at hy
          | cons z zs ihz =>
            intro j y off hall2 hy hoff
            rw [allShape, Bool.and_eq_true] at hall2
            have hzlen : z.toList.length = ns.prod := toList_length ns z hall2.1
            cases j with
            | zero =>
              simp only [List.getElem?_cons_zero, Option.some_inj] at hy
              subst hy
              rw [toListAll, Nat.zero_mul, Nat.zero_add,
                List.getElem?_append_left (by rw [hzlen]; exact hoff)]
            | succ m =>
              rw [toListAll, List.getElem?_append_right
                (by rw [hzlen]; nlinarith [Nat.succ_mul m ns.prod])]
              have harith : (m + 1) * ns.prod + off - z.toList.length =
                  m * ns.prod + off := by
                rw [hzlen, Nat.succ_mul]
                omega
              rw [harith]
              exact ihz m y off hall2.2 (by simpa using hy) hoff
        exact congrArg (Option.map NArr.scalar) (key xs i x (rmOffset ns is1)
          hall hx (rmOffset_lt ns is1 hlen1 hbd1)).symm

/-- Writing through a full-depth access chain and reading through the same
chain returns the written value. -/
lemma slice_setPath {α : Type} :
    ∀ (shape : List Nat) (t : NArr α) (is : List Nat) (v : α),
      t.hasShape shape = true → is.length = shape.length →
      (∀ k, k < is.length → is.getD k 0 < shape.getD k 0) →
      slice (t.setPath is v) is = some (.scalar v) := by
  intro shape
  induction shape with
  | nil =>
    intro t is v h hlen _
    rw [List.length_nil, List.length_eq_zero] at hlen
    subst hlen
    cases t with
    | scalar a => simp [NArr.setPath, slice]
    | arr xs => rw [NArr.hasShape] at h; exact absurd h (by simp)
  | cons n ns ih =>
    intro t is v h hlen hbd
    cases t with
    | scalar a => rw [NArr.hasShape] at h; exact absurd h (by simp)
    | arr xs =>
      rw [NArr.hasShape, Bool.and_eq_true, beq_iff_eq] at h
      obtain ⟨hxl, hall⟩ := h
      cases is with
      | nil => simp at hlen
      | cons i is1 =>
        have hi : i < xs.length := by
          have := hbd 0 (by simp)
          simpa [hxl] using this
        obtain ⟨x, hx⟩ : ∃ x, xs[i]? = some x :=
          ⟨xs[i], List.getElem?_eq_getElem hi⟩
        rw [NArr.setPath, slice, sliceList_eq, setList_getElem?_self, hx]
        simp only [Option.map_some', Option.getD_some]
        refine ih x is1 v (allShape_getElem? ns xs i x hall hx)
          (by simpa using hlen) ?_
        intro k hk
        simpa using hbd (k + 1) (by simpa using Nat.succ_lt_succ hk)

/-- On an in-range index tuple the checked chain `checked_slice` and the
unchecked chain `slice` produce the same result. -/
lemma checked_agrees_unchecked {α : Type} :
    ∀ (is shape : List Nat) (t : NArr α),
      t.hasShape shape = true → is.length ≤ shape.length →
      (∀ k, k < is.length → is.getD k 0 < shape.getD k 0) →
      ∃ u, slice t is = some u ∧ checkedSlice t is = .ok u := by
  intro is
  induction is with
  | nil => intro shape t _ _ _; exact ⟨t, by rw [slice], by rw [checkedSlice]⟩
  | cons i is1 ih =>
    intro shape t h hlen hbd
    cases shape with
    | nil => simp at hlen
    | cons n ns =>
      cases t with
      | scalar a => rw [NArr.hasShape] at h; exact absurd h (by simp)
      | arr xs =>
        rw [NArr.hasShape, Bool.and_eq_true, beq_iff_eq] at h
        obtain ⟨hxl, hall⟩ := h
        have hi : i < xs.length := by
          have := hbd 0 (by simp)
          simpa [hxl] using this
        obtain ⟨x, hx⟩ : ∃ x, xs[i]? = some x :=
          ⟨xs[i], List.getElem?_eq_getElem hi⟩
        obtain ⟨u, hu1, hu2⟩ := ih ns x (allShape_getElem? ns xs i x hall hx)
          (by simpa using hlen)
          (fun k hk => by
            simpa using hbd (k + 1) (by simpa using Nat.succ_lt_succ hk))
        refine ⟨u, ?_, ?_⟩
        · rw [slice, sliceList_eq, hx]
          simpa using hu1
        · rw [checkedSlice, if_pos hi, checkedSliceList_eq, hx]
          simpa using hu2

/-- The index-walking loop of `at` never throws the arity error; that check
happens before the loop. -/
lemma atLoop_ne_wrongArity :
    ∀ (is ns : List Nat) (s off : Nat),
      atLoop ns s off is ≠ .error .wrongArity := by
  intro is
  induction is with
  | nil => intro ns s off; cases ns <;> simp [atLoop]
  | cons i is1 ih =>
    intro ns s off
    cases ns with
    | nil => simp [atLoop]
    | cons n ns1 =>
      rw [atLoop]
      split
      · simp
      · exact ih ns1 _ _

/-- The index-walking loop of `at` throws the range error exactly when some
supplied index reaches its extent. -/
lemma atLoop_oor_iff :
    ∀ (shape is : List Nat) (s off : Nat), is.length = shape.length →
      (atLoop shape s off is = .error .outOfRange ↔
        ∃ k, k < is.length ∧ shape.getD k 0 ≤ is.getD k 0) := by
  intro shape
  induction shape with
  | nil =>
    intro is s off hlen
    rw [List.length_nil, List.length_eq_zero] at hlen
    subst hlen
    simp [atLoop]
  | cons n ns ih =>
    intro is s off hlen
    cases is with
    | nil => simp at hlen
    | cons i is1 =>
      rw [atLoop]
      by_cases hni : n ≤ i
      · rw [if_pos hni]
        constructor
        · intro _; exact ⟨0, by simp, by simpa using hni⟩
        · intro _; rfl
      · rw [if_neg hni, ih is1 _ _ (by simpa using hlen)]
        constructor
        · rintro ⟨k, hk, hge⟩
          exact ⟨k + 1, by simpa using Nat.succ_lt_succ hk, by simpa using hge⟩
        · rintro ⟨k, hk, hge⟩
          cases k with
          | zero => exact absurd (by simpa using hge) hni
          | succ m => exact ⟨m, by simpa using hk, by simpa using hge⟩

/-- On an in-range full-rank tuple the `at` loop computes the row-major
offset of the addressed element. -/
lemma atLoop_ok :
    ∀ (shape is : List Nat) (off : Nat), is.length = shape.length →
      (∀ k, k < is.length → is.getD k 0 < shape.getD k 0) →
      atLoop shape shape.prod off is = .ok (off + rmOffset shape is) := by
  intro shape
  induction shape with
  | nil =>
    intro is off hlen _
    rw [List.length_nil, List.length_eq_zero] at hlen
    subst hlen
    simp [atLoop, rmOffset_nil]
  | cons n ns ih =>
    intro is off hlen hbd
    cases is with
    | nil => simp at hlen
    | cons i is1 =>
      have hi : i < n := by simpa using hbd 0 (by simp)
      have hn : 0 < n := Nat.lt_of_le_of_lt (Nat.zero_le _) hi
      have hdiv : (n :: ns).prod / n = ns.prod := by
        rw [List.prod_cons, Nat.mul_div_cancel_left _ hn]
      rw [atLoop, if_neg (by omega), hdiv,
        ih is1 _ (by simpa using hlen)
          (fun k hk => by
            simpa using hbd (k + 1) (by simpa using Nat.succ_lt_succ hk)),
        rmOffset_cons]
      congr 1
      ring

/-- With more indices than extents, the unchecked list-form loop runs off
the end of `static_sizes`: undefined behaviour, no exception. -/
lemma callLoop_over :
    ∀ (shape is : List Nat) (sz stride off : Nat), shape.length < is.length →
      callLoop sz shape stride off is = .undef := by
  intro shape
  induction shape with
  | nil =>
    intro is sz stride off hlen
    cases is with
    | nil => simp at hlen
    | cons i is1 => rw [callLoop]
  | cons n ns ih =>
    intro is sz stride off hlen
    cases is with
    | nil => simp at hlen
    | cons i is1 =>
      rw [callLoop]
      exact ih is1 _ _ _ (by simpa using hlen)

/-! Claims about the fixed-shape array. -/

/-- C1: for every fixed-shape array and every in-range full index tuple,
writing through `operator()(i0,...,i_{r-1})` and then reading through the
same call returns the written value, and the element read is the one at
`data()[offset]` with `offset = Σ_k i_k * stride_k` for the row-major
strides; concretely, for `array_md<int,2,3>` initialized with
`{2,3,5,7,11,13}`: `arr(0,0)==2`, `arr(0,2)==5`, `arr(1,0)==7`,
`arr.back()==13` and `arr.size()==6`. -/
theorem claim_C1 :
    (∀ (shape : List Nat) (t : NArr Nat) (is : List Nat) (v : Nat),
      t.hasShape shape = true → is.length = shape.length →
      (∀ k, k < is.length → is.getD k 0 < shape.getD k 0) →
      slice (t.setPath is v) is = some (.scalar v) ∧
      slice t is = (t.toList[rmOffset shape is]?).map NArr.scalar) ∧
    slice scenarioA [0, 0] = some (.scalar 2) ∧
    slice scenarioA [0, 2] = some (.scalar 5) ∧
    slice scenarioA [1, 0] = some (.scalar 7) ∧
    scenarioA.toList[static_size [2, 3] - 1]? = some 13 ∧
    static_size [2, 3] = 6 ∧ scenarioA.toList.length = 6 := by
  refine ⟨fun shape t is v h hlen hbd =>
    ⟨slice_setPath shape t is v h hlen hbd,
     slice_eq_toList_getElem? shape t is h hlen hbd⟩, ?_, ?_, ?_, ?_, ?_, ?_⟩
  · simp [scenarioA, slice, sliceList]
  · simp [scenarioA, slice, sliceList]
  · simp [scenarioA, slice, sliceList]
  · simp [scenarioA, NArr.toList, toListAll, static_size]
  · rfl
  · simp [scenarioA, NArr.toList, toListAll]

/-- Witness for C1 at `array_md<int,2,3>{{2,3,5,7,11,13}}`, tuple `(1,2)`,
written value 42. -/
theorem claim_C1_witness :
    slice (scenarioA.setPath [1, 2] 42) [1, 2] = some (.scalar 42) ∧
    slice scenarioA [1, 2] =
      (scenarioA.toList[rmOffset [2, 3] [1, 2]]?).map NArr.scalar :=
  claim_C1.1 [2, 3] scenarioA [1, 2] 42
    (by simp [scenarioA, NArr.hasShape, allShape]) (by simp) (by decide)

/-- C2: the checked accessor `at` (list form) throws the wrong-arity error
exactly when the supplied index count differs from the rank, throws the
index-out-of-range error exactly when the arity is right and some index
reaches its extent, and on an in-range tuple returns the addressed element
(at its row-major `data()` offset) without throwing. -/
theorem claim_C2 :
    ∀ (shape is : List Nat),
      (array_md_at_list shape is = .error .wrongArity ↔
        is.length ≠ shape.length) ∧
      (array_md_at_list shape is = .error .outOfRange ↔
        is.length = shape.length ∧
          ∃ k, k < is.length ∧ shape.getD k 0 ≤ is.getD k 0) ∧
      (is.length = shape.length →
        (∀ k, k < is.length → is.getD k 0 < shape.getD k 0) →
        array_md_at_list shape is = .ok (rmOffset shape is)) := by
  intro shape is
  refine ⟨?_, ?_, ?_⟩
  · by_cases h : is.length = shape.length
    · rw [array_md_at_list, if_neg (by omega)]
      simp only [h, ne_eq, not_true_eq_false, iff_false]
      exact atLoop_ne_wrongArity is shape _ _
    · rw [array_md_at_list, if_pos h]
      simp [h]
  · by_cases h : is.length = shape.length
    · rw [array_md_at_list, if_neg (by omega),
        atLoop_oor_iff shape is _ _ h]
      simp [h]
    · rw [array_md_at_list, if_pos h]
      simp [h]
  · intro h hbd
    rw [array_md_at_list, if_neg (by omega), static_size]
    simpa using atLoop_ok shape is 0 h hbd

/-- Witness for C2: `at` on shape `(2,3)`: tuple `(1,2)` is in range and
addressed at offset 5; an empty tuple is a wrong arity; `(0,99)` is out of
range. -/
theorem claim_C2_witness :
    array_md_at_list [2, 3] [1, 2] = .ok (rmOffset [2, 3] [1, 2]) ∧
    array_md_at_list [2, 3] [] = .error .wrongArity ∧
    array_md_at_list [2, 3] [0, 99] = .error .outOfRange :=
  ⟨(claim_C2 [2, 3] [1, 2]).2.2 (by decide) (by decide),
   (claim_C2 [2, 3] []).1.2 (by decide),
   (claim_C2 [2, 3] [0, 99]).2.1.2 (by decide)⟩

/-- C8: on every in-range index tuple (of any depth up to the rank), the
checked indexing chain `checked_slice` used by `at` computes the very same
result as the unchecked chain `slice` used by `operator()`. -/
theorem claim_C8 :
    ∀ (shape : List Nat) (t : NArr Nat) (is : List Nat),
      t.hasShape shape = true → is.length ≤ shape.length →
      (∀ k, k < is.length → is.getD k 0 < shape.getD k 0) →
      ∃ u, slice t is = some u ∧ checkedSlice t is = .ok u :=
  fun shape t is h hlen hbd => checked_agrees_unchecked is shape t h hlen hbd

/-- Witness for C8 at `array_md<int,2,3>{{2,3,5,7,11,13}}`, tuple `(1,2)`. -/
theorem claim_C8_witness :
    slice scenarioA [1, 2] = some (.scalar 13) ∧
    checkedSlice scenarioA [1, 2] = .ok (.scalar 13) := by
  obtain ⟨u, h1, h2⟩ := claim_C8 [2, 3] scenarioA [1, 2]
    (by simp [scenarioA, NArr.hasShape, allShape]) (by decide) (by decide)
  have h3 : slice scenarioA [1, 2] = some (NArr.scalar 13) := by
    simp [scenarioA, slice, sliceList]
  have hu : some u = some (NArr.scalar (13 : Nat)) := by rw [← h1, h3]
  injection hu with hu
  subst hu
  exact ⟨h1, h2⟩

/-- C9 counterexample: on `array_md<int,2,3>`, calling the unchecked
list-form `operator()` with three indices does not detect or report any
error — the loop reads past the end of `static_sizes`, which is undefined
behaviour, not a raised error. -/
theorem claim_C9_counterexample :
    (array_md_call_list [2, 3] [0, 0, 0]).isRaised = false ∧
    array_md_call_list [2, 3] [0, 0, 0] = .undef := by
  constructor
  · rw [array_md_call_list, callLoop, callLoop, callLoop]
    rfl
  · rw [array_md_call_list, callLoop, callLoop, callLoop]

/-- C9 amended: supplying more than `rank` indices to the dynamic-list form
of the unchecked `operator()` is *not* detected at the call: the access
walks off the end of `static_sizes` (undefined behaviour) and raises
nothing; the over-arity is detected only by the checked accessor `at`,
which throws `std::length_error` (and by the fixed variadic form, at
compile time via its `static_assert`). -/
theorem claim_C9 :
    ∀ (shape is : List Nat), shape.length < is.length →
      array_md_call_list shape is = .undef ∧
      (array_md_call_list shape is).isRaised = false ∧
      array_md_at_list shape is = .error .wrongArity := by
  intro shape is h
  have hc := callLoop_over shape is (static_size shape) (static_size shape) 0 h
  rw [array_md_call_list, hc]
  exact ⟨rfl, rfl, by rw [array_md_at_list, if_pos (by omega)]⟩

/-- Witness for the amended C9 at shape `(2,3)` with three indices. -/
theorem claim_C9_witness :
    array_md_call_list [2, 3] [1, 1, 1] = .undef ∧
    (array_md_call_list [2, 3] [1, 1, 1]).isRaised = false ∧
    array_md_at_list [2, 3] [1, 1, 1] = .error .wrongArity :=
  claim_C9 [2, 3] [1, 1, 1] (by decide)

/-- C10: the rank-0 `array_md<T>` has `static_size` and `size()` equal to 1,
is never `empty()`, returns its sole element from `operator()()`, from
`at()` and from `at` with an empty index list, and throws
`std::length_error` from `at` on every non-empty index list. -/
theorem claim_C10 :
    array0_static_size = 1 ∧ array0_size = 1 ∧ array0_empty = false ∧
    (∀ x : Nat, array0_call x = x ∧ array0_at0 x = x ∧
      array0_at_list x [] = .ok x) ∧
    (∀ (x : Nat) (is : List Nat), is ≠ [] →
      array0_at_list x is = .error .wrongArity) := by
  refine ⟨rfl, rfl, rfl, fun x => ⟨rfl, rfl, rfl⟩, fun x is h => ?_⟩
  rw [array0_at_list, if_pos]
  rw [ne_eq, List.length_eq_zero]
  exact h

/-- Witness for C10: the sole element 7 round-trips, and one index is
already too many. -/
theorem claim_C10_witness :
    array0_call (7 : Nat) = 7 ∧
    array0_at_list (7 : Nat) [0] = .error .wrongArity :=
  ⟨(claim_C10.2.2.2.1 7).1, claim_C10.2.2.2.2 7 [0] (by decide)⟩

end ArrayMD

namespace MultiArr

/-- Errors thrown by the mutators of `multiarray_indexed_base`:
`zeroExtent` is `std::out_of_range` ("Zero-sized extent"), `extentOverflow`
is `std::overflow_error`, `badPriorityValue` is `std::out_of_range`
("Illegal priority value"), `badPriorityPerm` is `std::invalid_argument`
("Improper priority list"). -/
inductive MaErr : Type where
  | zeroExtent
  | extentOverflow
  | badPriorityValue
  | badPriorityPerm
  deriving DecidableEq, Repr

/-- The length `dimensionality + !dimensionality` of each row of the
`stats` member: the rank, padded to 1 when the rank is 0 so that no
zero-length array is declared. -/
def statLen (r : Nat) : Nat := r + (if r = 0 then 1 else 0)

/-- The index bookkeeping of `multiarray_indexed_base<SizeType, Rank>`: the
three rows of its `stats` member — the extent, the priority and the cached
stride of each dimension, each `statLen Rank` entries long. -/
structure MIB : Type where
  extents : List Nat
  priorities : List Nat
  strides : List Nat
  deriving DecidableEq, Repr

/-- The default constructor: every extent 1, row-major priorities
(`iota`), every stride 1. -/
def mibInit (r : Nat) : MIB :=
  { extents := List.replicate (statLen r) 1
    priorities := List.range (statLen r)
    strides := List.replicate (statLen r) 1 }

/-- `required_size()`: `stats[extents][major] * stats[strides][major]` where
`major = stats[priorities][0]`. -/
def required_size (st : MIB) : Nat :=
  st.extents.getD (st.priorities.getD 0 0) 0 *
    st.strides.getD (st.priorities.getD 0 0) 0

/-- The `extents()` getter: the first `dimensionality` entries of the
extents row. -/
def extentsGet (r : Nat) (st : MIB) : List Nat := st.extents.take r

/-- The `priorities()` getter: the first `dimensionality` entries of the
priorities row. -/
def prioritiesGet (r : Nat) (st : MIB) : List Nat := st.priorities.take r

/-- `std::copy(src.begin(), src.end(), dst.begin())`: overwrite the leading
entries of `dst` with `src`. -/
def overwrite (dst src : List Nat) : List Nat := src ++ dst.drop src.length

/-- The overflow scan of `update_extents`: `limit = 1`, and for each extent
`if (*i > max / limit) throw std::overflow_error; else limit *= *i`. -/
def extOverflow (mx : Nat) : Nat → List Nat → Bool
  | _, [] => false
  | limit, e :: es => if mx / limit < e then true else extOverflow mx (limit * e) es

/-- `multiarray_indexed_base::update_extents`: reject a zero extent
(`std::out_of_range`), then reject a total element count above
`numeric_limits<size_type>::max()` (`std::overflow_error`), then copy the
new extents into the stats row. -/
def update_extents (mx : Nat) (st : MIB) (e : List Nat) : Except MaErr MIB :=
  if 0 ∈ e then .error .zeroExtent
  else if extOverflow mx 1 e then .error .extentOverflow
  else .ok { st with extents := overwrite st.extents e }

/-- `multiarray_indexed_base::update_priorities`: reject an entry `≥ Rank`
(`std::out_of_range`), then reject a list that is not a permutation of
`0 .. Rank-1` (`std::invalid_argument`, via `std::is_permutation` against
the iota list), then copy the new priorities into the stats row. -/
def update_priorities (r : Nat) (st : MIB) (p : List Nat) : Except MaErr MIB :=
  if p.any fun x => r ≤ x then .error .badPriorityValue
  else if List.Perm p (List.range r) then
    .ok { st with priorities := overwrite st.priorities p }
  else .error .badPriorityPerm

/-- The loop of `recalculate_strides`: for each priority rank in turn (most
major first), `strides[which_index] = (product /= extents[which_index])`. -/
def recalcGo (exts : List Nat) : Nat → List Nat → List Nat → List Nat
  | _, [], strides => strides
  | product, d :: ds, strides =>
      recalcGo exts (product / exts.getD d 0) ds
        (strides.set d (product / exts.getD d 0))

/-- `multiarray_indexed_base::recalculate_strides`: start from the product
of the whole extents row and walk the first `dimensionality` priorities. -/
def recalculate_strides (r : Nat) (st : MIB) : MIB :=
  { st with strides :=
      recalcGo st.extents st.extents.prod (st.priorities.take r) st.strides }

/-- The `extents(stats_type const&)` setter: validate-and-copy, then
recompute the stride cache. -/
def extents_set (r mx : Nat) (st : MIB) (e : List Nat) : Except MaErr MIB :=
  (update_extents mx st e).map (recalculate_strides r)

/-- The `priorities(stats_type const&)` setter: validate-and-copy, then
recompute the stride cache. -/
def priorities_set (r : Nat) (st : MIB) (p : List Nat) : Except MaErr MIB :=
  (update_priorities r st p).map (recalculate_strides r)

/-- `extents_and_priorities(e, p)`: save the old extents, apply the new
extents, then the new priorities; if the latter throws, roll the extents
back with another `update_extents` call and rethrow; recompute strides once
at the end.  The result is the observable post-call state together with the
exception, if one propagated. -/
def extents_and_priorities (r mx : Nat) (st : MIB) (e p : List Nat) :
    MIB × Option MaErr :=
  match update_extents mx st e with
  | .error err => (st, some err)
  | .ok st1 =>
    match update_priorities r st1 p with
    | .error err =>
        match update_extents mx st1 (extentsGet r st) with
        | .ok st2 => (st2, some err)
        | .error err2 => (st1, some err2)
    | .ok st2 => (recalculate_strides r st2, none)

/-- The extent list `resize_to_fit` builds in every `multiarray`
constructor: all ones, except that the first entry (when the rank is
positive) is the container's element count, or 1 if the container is
empty. -/
def resizeExtents (r csize : Nat) : List Nat :=
  (List.replicate r 1).set 0 (if 0 < r ∧ 0 < csize then csize else 1)

/-- The indexing state a `multiarray` constructor leaves behind: the
default-constructed `multiarray_indexed_base`, reshaped by
`resize_to_fit`'s `extents(e)` call. -/
def multiarray_ctor (r mx csize : Nat) : Except MaErr MIB :=
  extents_set r mx (mibInit r) (resizeExtents r csize)

/-- One pass of the `advance_index_pack` loop body at dimension `d`:
`indexes[d] += turnover; turnover = indexes[d] >= extents[d];
indexes[d] *= !turnover;`. -/
def advStepD (st : MIB) (acc : List Nat × Bool) (d : Nat) : List Nat × Bool :=
  ((if st.extents.getD d 0 ≤ acc.1.getD d 0 + (if acc.2 then 1 else 0)
    then acc.1.set d 0
    else acc.1.set d (acc.1.getD d 0 + (if acc.2 then 1 else 0))),
   st.extents.getD d 0 ≤ acc.1.getD d 0 + (if acc.2 then 1 else 0))

/-- `multiarray_indexed_base::advance_index_pack`: starting with
`turnover = true`, loop `for (auto i = dimensionality; i--;)` over the
priority ranks from least major to most major. -/
def advance_index_pack (r : Nat) (st : MIB) (idx : List Nat) :
    List Nat × Bool :=
  (List.range r).reverse.foldl
    (fun acc i => advStepD st acc (st.priorities.getD i 0)) (idx, true)

/-- The visiting loop of `multiarray::apply`: `limit` more calls to make,
`pos` the current position from the container's beginning, `idx` the
current index pack.  The trace records, in order, the element and the
coordinate tuple passed to each invocation of the function. -/
def applyGo {α : Type} [Inhabited α] (r : Nat) (st : MIB) (c : List α) :
    Nat → Nat → List Nat → List (α × List Nat)
  | 0, _, _ => []
  | limit + 1, pos, idx =>
      (c.getD pos default, idx) ::
        applyGo r st c limit (pos + 1) (advance_index_pack r st idx).1

/-- `multiarray::apply(f)`: `limit = min(required_size(), size())`, start at
the container's beginning with `first_index_pack()` (the all-zero pack). -/
def applyRun {α : Type} [Inhabited α] (r : Nat) (st : MIB) (c : List α) :
    List (α × List Nat) :=
  applyGo r st c (min (required_size st) c.length) 0 (List.replicate r 0)

/-- Modelled from the spec's odometer description: "starting from the
least-major dimension, increment its coordinate; if it now equals its
extent, reset it to zero and propagate a carry to the next more major
dimension (repeat); otherwise stop", wrapping to the all-zero tuple when
the most-major dimension carries out. -/
def specAdvanceGo (st : MIB) : List Nat → List Nat → List Nat
  | idx, [] => idx
  | idx, d :: ds =>
      if st.extents.getD d 0 ≤ idx.getD d 0 + 1 then
        specAdvanceGo st (idx.set d 0) ds
      else idx.set d (idx.getD d 0 + 1)

/-- The spec's odometer advance: walk the dimensions from least major to
most major, i.e. the priority list reversed. -/
def specAdvance (r : Nat) (st : MIB) (idx : List Nat) : List Nat :=
  specAdvanceGo st idx (st.priorities.take r).reverse

/-- Well-formedness of the index bookkeeping, as established by the
constructor and maintained by every successful mutator: the three stats
rows have their declared length, every extent is positive with a product
within `size_type` range, the priorities row is a permutation of the
dimension numbers, and in the rank-0 degenerate case the padding slots
still hold their initial 1s. -/
def WF (r mx : Nat) (st : MIB) : Prop :=
  st.extents.length = statLen r ∧ st.priorities.length = statLen r ∧
  st.strides.length = statLen r ∧ (∀ x ∈ st.extents, 0 < x) ∧
  st.extents.prod ≤ mx ∧ List.Perm st.priorities (List.range (statLen r)) ∧
  (r = 0 → st.extents = [1] ∧ st.strides = [1])

/-- The stride cache is correct: the stride of the dimension at priority
rank `i` is the product of the extents of all dimensions less major than
it. -/
def stridesSpec (r : Nat) (st : MIB) : Prop :=
  ∀ i, i < statLen r →
    st.strides.getD (st.priorities.getD i 0) 0 =
      (((st.priorities.map fun d => st.extents.getD d 0).drop (i + 1)).prod)

instance (r mx : Nat) (st : MIB) : Decidable (WF r mx st) := by
  unfold WF
  infer_instance

instance (r : Nat) (st : MIB) : Decidable (stridesSpec r st) := by
  unfold stridesSpec
  infer_instance

/-! List bookkeeping lemmas. -/

lemma getD_set_eq (l : List Nat) (d v x : Nat) (h : d < l.length) :
    (l.set d v).getD d x = v := by
  simp [List.getD_eq_getElem?_getD, h]

lemma getD_set_ne (l : List Nat) (d e v x : Nat) (h : d ≠ e) :
    (l.set d v).getD e x = l.getD e x := by
  simp [List.getD_eq_getElem?_getD, List.getElem?_set_ne h]

lemma set_getD_self (l : List Nat) :
    ∀ (d x : Nat), d < l.length → l.set d (l.getD d x) = l := by
  induction l with
  | nil => intro d x h; simp at h
  | cons a as ih =>
    intro d x h
    cases d with
    | zero => simp
    | succ m =>
      simp only [List.set_cons_succ, List.getD_cons_succ]
      rw [ih m x (by simpa using h)]

lemma getD_mem (l : List Nat) (i x : Nat) (h : i < l.length) :
    l.getD i x ∈ l := by
  rw [List.getD_eq_getElem l x h]
  exact List.getElem_mem ..

lemma map_range_getD (l : List Nat) :
    ∀ r, r ≤ l.length →
      (List.range r).map (fun i => l.getD i 0) = l.take r := by
  intro r
  induction r with
  | zero => intro _; simp
  | succ m ih =>
    intro h
    rw [List.range_succ, List.map_append, ih (by omega), List.take_succ]
    simp [List.getD_eq_getElem?_getD,
      List.getElem?_eq_getElem (show m < l.length by omega)]

lemma overwrite_nil (dst : List Nat) : overwrite dst [] = dst := by
  simp [overwrite]

lemma overwrite_full (dst src : List Nat) (h : src.length = dst.length) :
    overwrite dst src = src := by
  rw [overwrite, List.drop_eq_nil_of_le (by omega), List.append_nil]

lemma overwrite_length (dst src : List Nat) (h : src.length ≤ dst.length) :
    (overwrite dst src).length = dst.length := by
  rw [overwrite, List.length_append, List.length_drop]
  omega

/-! The extent-overflow scan. -/

/-- The running check `*i > max / limit` of `update_extents` detects
exactly a product exceeding the `size_type` maximum. -/
lemma extOverflow_iff :
    ∀ (es : List Nat) (limit mx : Nat), 0 < limit → limit ≤ mx →
      (∀ x ∈ es, 0 < x) →
      (extOverflow mx limit es = true ↔ mx < limit * es.prod) := by
  intro es
  induction es with
  | nil =>
    intro limit mx h1 h2 _
    simp only [extOverflow, List.prod_nil, Nat.mul_one]
    constructor
    · intro h; exact absurd h (by simp)
    · intro h; omega
  | cons e es1 ih =>
    intro limit mx h1 h2 hpos
    have hepos : 0 < e := hpos e (by simp)
    have hprodpos : 0 < es1.prod :=
      List.prod_pos fun x hx => hpos x (by simp [hx])
    rw [extOverflow]
    by_cases hd : mx / limit < e
    · rw [if_pos hd, List.prod_cons]
      have he : mx < e * limit := (Nat.div_lt_iff_lt_mul h1).1 hd
      simp only [true_iff]
      calc mx < e * limit := he
        _ = limit * e * 1 := by ring
        _ ≤ limit * e * es1.prod := Nat.mul_le_mul_left _ hprodpos
        _ = limit * (e * es1.prod) := by ring
    · rw [if_neg hd]
      push_neg at hd
      have hle : limit * e ≤ mx := by
        have h3 := (Nat.le_div_iff_mul_le h1).1 hd
        rw [Nat.mul_comm] at h3
        exact h3
      rw [ih (limit * e) mx (by positivity) hle
        (fun x hx => hpos x (by simp [hx])), List.prod_cons, Nat.mul_assoc]

/-! Analysis of `update_extents` and `update_priorities`. -/

lemma update_extents_zero_iff (mx : Nat) (st : MIB) (e : List Nat) :
    update_extents mx st e = .error .zeroExtent ↔ 0 ∈ e := by
  rw [update_extents]
  by_cases h : 0 ∈ e
  · rw [if_pos h]; simp [h]
  · rw [if_neg h]
    split <;> simp [h]

lemma update_extents_overflow_iff (mx : Nat) (st : MIB) (e : List Nat)
    (h0 : 0 ∉ e) (hmx : 0 < mx) :
    update_extents mx st e = .error .extentOverflow ↔ mx < e.prod := by
  have hpos : ∀ x ∈ e, 0 < x := fun x hx =>
    Nat.pos_of_ne_zero fun hz => h0 (hz ▸ hx)
  rw [update_extents, if_neg h0]
  rw [show (mx < e.prod ↔ extOverflow mx 1 e = true) by
    rw [extOverflow_iff e 1 mx (by omega) (by omega) hpos, Nat.one_mul]]
  split <;> simp_all

lemma update_extents_ok (mx : Nat) (st : MIB) (e : List Nat)
    (h0 : 0 ∉ e) (hpr : e.prod ≤ mx) (hmx : 0 < mx) :
    update_extents mx st e = .ok { st with extents := overwrite st.extents e } := by
  have hpos : ∀ x ∈ e, 0 < x := fun x hx =>
    Nat.pos_of_ne_zero fun hz => h0 (hz ▸ hx)
  rw [update_extents, if_neg h0, if_neg]
  rw [extOverflow_iff e 1 mx (by omega) (by omega) hpos, Nat.one_mul]
  omega

lemma update_priorities_value_iff (r : Nat) (st : MIB) (p : List Nat) :
    update_priorities r st p = .error .badPriorityValue ↔ ∃ x ∈ p, r ≤ x := by
  rw [update_priorities]
  by_cases h : p.any fun x => r ≤ x
  · rw [if_pos h]
    simpa using h
  · rw [if_neg h]
    have : ¬ ∃ x ∈ p, r ≤ x := by simpa using h
    split <;> simp [this]

lemma update_priorities_perm_iff (r : Nat) (st : MIB) (p : List Nat)
    (hval : ∀ x ∈ p, x < r) :
    update_priorities r st p = .error .badPriorityPerm ↔
      ¬ List.Perm p (List.range r) := by
  have hany : ¬ (p.any fun x => r ≤ x) = true := by
    simp only [List.any_eq_true, decide_eq_true_eq]
    push_neg
    exact hval
  rw [update_priorities, if_neg hany]
  split <;> simp_all

lemma update_priorities_ok (r : Nat) (st : MIB) (p : List Nat)
    (hperm : List.Perm p (List.range r)) :
    update_priorities r st p =
      .ok { st with priorities := overwrite st.priorities p } := by
  have hval : ∀ x ∈ p, x < r := fun x hx => by
    have := hperm.mem_iff.1 hx
    exact List.mem_range.1 this
  have hany : ¬ (p.any fun x => r ≤ x) = true := by
    simp only [List.any_eq_true, decide_eq_true_eq]
    push_neg
    exact hval
  rw [update_priorities, if_neg hany, if_pos hperm]

/-! The stride cache recomputation. -/

lemma statLen_of_ne (r : Nat) (h : r ≠ 0) : statLen r = r := by
  simp [statLen, h]

lemma statLen_pos (r : Nat) : 0 < statLen r := by
  unfold statLen
  split <;> omega

lemma recalcGo_length (exts : List Nat) :
    ∀ (ps : List Nat) (product : Nat) (strides : List Nat),
      (recalcGo exts product ps strides).length = strides.length := by
  intro ps
  induction ps with
  | nil => intro product strides; rw [recalcGo]
  | cons q qs ih =>
    intro product strides
    rw [recalcGo, ih, List.length_set]

lemma recalcGo_getD_not_mem (exts : List Nat) :
    ∀ (ps : List Nat) (product : Nat) (strides : List Nat) (d x : Nat),
      d ∉ ps →
      (recalcGo exts product ps strides).getD d x = strides.getD d x := by
  intro ps
  induction ps with
  | nil => intro product strides d x _; rw [recalcGo]
  | cons q qs ih =>
    intro product strides d x hd
    have h1 : d ≠ q := fun h => hd (h ▸ List.mem_cons_self q qs)
    have h2 : d ∉ qs := fun h => hd (List.mem_cons_of_mem q h)
    rw [recalcGo, ih _ _ _ _ h2, getD_set_ne _ _ _ _ _ (Ne.symm h1)]

/-- The stride written for the dimension at priority rank `i` is the
product of the extents of all less major dimensions. -/
lemma recalcGo_getD (exts : List Nat) :
    ∀ (ps strides : List Nat), ps.Nodup →
      (∀ d ∈ ps, d < strides.length) → (∀ d ∈ ps, 0 < exts.getD d 0) →
      ∀ i, i < ps.length →
        (recalcGo exts ((ps.map fun d => exts.getD d 0).prod) ps
            strides).getD (ps.getD i 0) 0 =
          ((ps.map fun d => exts.getD d 0).drop (i + 1)).prod := by
  intro ps
  induction ps with
  | nil => intro strides _ _ _ i hi; simp at hi
  | cons q qs ih =>
    intro strides hnd hlt hpos i hi
    have hq : 0 < exts.getD q 0 := hpos q (by simp)
    have hdiv : ((q :: qs).map fun d => exts.getD d 0).prod /
        exts.getD q 0 = (qs.map fun d => exts.getD d 0).prod := by
      rw [List.map_cons, List.prod_cons, Nat.mul_div_cancel_left _ hq]
    rw [recalcGo, hdiv]
    cases i with
    | zero =>
      rw [List.getD_cons_zero]
      have hnm : q ∉ qs := (List.nodup_cons.1 hnd).1
      rw [recalcGo_getD_not_mem exts qs _ _ q 0 hnm,
        getD_set_eq _ _ _ _ (hlt q (by simp))]
      simp
    | succ j =>
      rw [List.getD_cons_succ, List.map_cons, List.drop_succ_cons]
      exact ih (strides.set q ((qs.map fun d => exts.getD d 0).prod))
        (List.nodup_cons.1 hnd).2
        (fun d hd => by rw [List.length_set]; exact hlt d (by simp [hd]))
        (fun d hd => hpos d (by simp [hd])) j (by simpa using hi)

@[simp] lemma recalc_extents (r : Nat) (st : MIB) :
    (recalculate_strides r st).extents = st.extents := rfl

@[simp] lemma recalc_priorities (r : Nat) (st : MIB) :
    (recalculate_strides r st).priorities = st.priorities := rfl

lemma perm_map_getD (l p : List Nat)
    (h : List.Perm p (List.range l.length)) :
    List.Perm (p.map fun d => l.getD d 0) l := by
  have h2 := h.map fun d => l.getD d 0
  rwa [map_range_getD l l.length (Nat.le_refl _), List.take_length] at h2

/-- After `recalculate_strides` on a well-formed state: the stride cache is
correct, `required_size()` is the product of the extents, and the state is
still well-formed. -/
lemma recalc_good (r mx : Nat) (st : MIB) (h : WF r mx st) :
    stridesSpec r (recalculate_strides r st) ∧
    required_size (recalculate_strides r st) =
      (extentsGet r (recalculate_strides r st)).prod ∧
    WF r mx (recalculate_strides r st) := by
  obtain ⟨hel, hpl, hsl, hpos, hmx, hperm, hr0⟩ := h
  by_cases hr : r = 0
  · subst hr
    obtain ⟨hext, hstr⟩ := hr0 rfl
    have hpri : st.priorities = [0] := by
      have hr1 : List.range (statLen 0) = [0] := by decide
      have h2 : List.Perm st.priorities [0] := hr1 ▸ hperm
      exact List.perm_singleton.1 h2
    have hre : recalculate_strides 0 st = st := by
      rw [recalculate_strides, List.take_zero, recalcGo]
    rw [hre]
    refine ⟨?_, ?_, hel, hpl, hsl, hpos, hmx, hperm, fun _ => ⟨hext, hstr⟩⟩
    · intro i hi
      have hi1 : i = 0 := by
        have : i < 1 := by simpa [statLen] using hi
        omega
      subst hi1
      rw [hpri, hext, hstr]
      simp
    · rw [required_size, extentsGet, hpri, hext, hstr]
      simp
  · have hsl2 : statLen r = r := statLen_of_ne r hr
    have hplr : st.priorities.length = r := by rw [hpl, hsl2]
    have htake : st.priorities.take r = st.priorities := by
      rw [← hplr, List.take_length]
    have hperm2 : List.Perm st.priorities (List.range st.extents.length) := by
      rw [hel]
      exact hperm
    have hprodeq : (st.priorities.map fun d => st.extents.getD d 0).prod =
        st.extents.prod := (perm_map_getD st.extents st.priorities hperm2).prod_eq
    have hnd : st.priorities.Nodup := hperm.nodup_iff.2 (List.nodup_range _)
    have hlt : ∀ d ∈ st.priorities, d < st.strides.length := by
      intro d hd
      rw [hsl]
      exact List.mem_range.1 (hperm.mem_iff.1 hd)
    have hpos2 : ∀ d ∈ st.priorities, 0 < st.extents.getD d 0 := by
      intro d hd
      have hdr : d < st.extents.length := by
        rw [hel]
        exact List.mem_range.1 (hperm.mem_iff.1 hd)
      exact hpos _ (getD_mem st.extents d 0 hdr)
    have hss : stridesSpec r (recalculate_strides r st) := by
      intro i hi
      show (recalcGo st.extents st.extents.prod (st.priorities.take r)
          st.strides).getD (st.priorities.getD i 0) 0 = _
      rw [htake, ← hprodeq]
      exact recalcGo_getD st.extents st.priorities st.strides hnd hlt hpos2 i
        (by rw [hplr, ← hsl2]; exact hi)
    refine ⟨hss, ?_, ?_⟩
    · have hp0 : 0 < st.priorities.length := by rw [hplr]; omega
      obtain ⟨q, qs, hq⟩ : ∃ q qs, st.priorities = q :: qs := by
        cases hc : st.priorities with
        | nil => rw [hc] at hp0; simp at hp0
        | cons q qs => exact ⟨q, qs, rfl⟩
      have hmp : (st.priorities.map fun d => st.extents.getD d 0) =
          st.extents.getD q 0 :: (qs.map fun d => st.extents.getD d 0) := by
        rw [hq, List.map_cons]
      have h0 := hss 0 (statLen_pos r)
      rw [required_size, extentsGet]
      simp only [recalc_extents, recalc_priorities] at h0 ⊢
      rw [h0, hq, List.getD_cons_zero, List.map_cons, List.drop_succ_cons,
        List.drop_zero, ← List.prod_cons, ← hmp, hprodeq]
      rw [show st.extents.take r = st.extents from by
        rw [← show st.extents.length = r from by rw [hel, hsl2],
          List.take_length]]
    · refine ⟨hel, hpl, ?_, hpos, hmx, hperm, fun hc => absurd hc hr⟩
      show (recalcGo _ _ _ st.strides).length = statLen r
      rw [recalcGo_length, hsl]

/-! The full setters and their state bookkeeping. -/

lemma extents_set_error_iff (r mx : Nat) (st : MIB) (e : List Nat)
    (x : MaErr) :
    extents_set r mx st e = .error x ↔ update_extents mx st e = .error x := by
  rw [extents_set]
  cases update_extents mx st e <;> simp [Except.map]

lemma priorities_set_error_iff (r : Nat) (st : MIB) (p : List Nat)
    (x : MaErr) :
    priorities_set r st p = .error x ↔
      update_priorities r st p = .error x := by
  rw [priorities_set]
  cases update_priorities r st p <;> simp [Except.map]

lemma update_extents_ok_inv (mx : Nat) (st st1 : MIB) (e : List Nat)
    (hmx : 0 < mx) (h : update_extents mx st e = .ok st1) :
    st1 = { st with extents := overwrite st.extents e } ∧
      0 ∉ e ∧ e.prod ≤ mx := by
  rw [update_extents] at h
  by_cases h0 : 0 ∈ e
  · rw [if_pos h0] at h
    exact absurd h (by simp)
  · rw [if_neg h0] at h
    by_cases hov : extOverflow mx 1 e = true
    · rw [if_pos hov] at h
      exact absurd h (by simp)
    · rw [if_neg hov] at h
      have hpos : ∀ x ∈ e, 0 < x := fun x hx =>
        Nat.pos_of_ne_zero fun hz => h0 (hz ▸ hx)
      have hiff := extOverflow_iff e 1 mx (by omega) (by omega) hpos
      rw [Nat.one_mul] at hiff
      have hnp : ¬ mx < e.prod := fun hlt => hov (hiff.2 hlt)
      refine ⟨?_, h0, by omega⟩
      injection h with h2
      exact h2.symm

lemma update_priorities_ok_inv (r : Nat) (st st1 : MIB) (p : List Nat)
    (h : update_priorities r st p = .ok st1) :
    st1 = { st with priorities := overwrite st.priorities p } ∧
      List.Perm p (List.range r) := by
  rw [update_priorities] at h
  by_cases hval : (p.any fun x => r ≤ x) = true
  · rw [if_pos hval] at h
    exact absurd h (by simp)
  · rw [if_neg hval] at h
    by_cases hperm : List.Perm p (List.range r)
    · rw [if_pos hperm] at h
      injection h with h2
      exact ⟨h2.symm, hperm⟩
    · rw [if_neg hperm] at h
      exact absurd h (by simp)

lemma take_overwrite (dst src : List Nat) (r : Nat)
    (hd : dst.length = statLen r) (hs : src.length = r) :
    (overwrite dst src).take r = src := by
  by_cases hr : r = 0
  · subst hr
    rw [List.length_eq_zero.1 (by omega : src.length = 0), overwrite_nil,
      List.take_zero]
  · rw [overwrite_full dst src (by rw [hs, hd, statLen_of_ne r hr]), ← hs,
      List.take_length]

lemma overwrite_restore (dst src : List Nat) (r : Nat)
    (hd : dst.length = statLen r) (hs : src.length = r) :
    overwrite (overwrite dst src) (dst.take r) = dst := by
  by_cases hr : r = 0
  · subst hr
    rw [List.length_eq_zero.1 (by omega : src.length = 0), overwrite_nil,
      List.take_zero, overwrite_nil]
  · have hdr : dst.length = r := by rw [hd, statLen_of_ne r hr]
    rw [overwrite_full dst src (by omega), ← hdr, List.take_length,
      overwrite_full src dst (by omega)]

lemma wf_init (r mx : Nat) (hmx : 0 < mx) : WF r mx (mibInit r) := by
  refine ⟨by simp [mibInit], by simp [mibInit], by simp [mibInit],
    ?_, ?_, ?_, ?_⟩
  · intro x hx
    have h2 := List.eq_of_mem_replicate (show x ∈ List.replicate (statLen r) 1
      from hx)
    omega
  · show (List.replicate (statLen r) 1).prod ≤ mx
    rw [List.prod_replicate, one_pow]
    omega
  · exact List.Perm.refl _
  · intro h0
    subst h0
    exact ⟨rfl, rfl⟩

/-- A successful `extents(e)` call: the committed state has `extents() == e`,
untouched priorities, a correct stride cache, `required_size()` the product
of the extents, and is well formed. -/
lemma extents_set_ok_full (r mx : Nat) (st : MIB) (e : List Nat)
    (h : WF r mx st) (hlen : e.length = r) (hmx : 0 < mx)
    (h0 : 0 ∉ e) (hpr : e.prod ≤ mx) :
    ∃ st2, extents_set r mx st e = .ok st2 ∧
      extentsGet r st2 = e ∧ st2.priorities = st.priorities ∧
      WF r mx st2 ∧ stridesSpec r st2 ∧
      required_size st2 = (extentsGet r st2).prod := by
  obtain ⟨hel, hpl, hsl, hpos, hmxp, hperm, hr0⟩ := h
  have hup := update_extents_ok mx st e h0 hpr hmx
  have hwf1 : WF r mx { st with extents := overwrite st.extents e } := by
    by_cases hr : r = 0
    · have he : e = [] := List.length_eq_zero.1 (by omega)
      have hid : { st with extents := overwrite st.extents e } = st := by
        rw [he, overwrite_nil]
      rw [hid]
      exact ⟨hel, hpl, hsl, hpos, hmxp, hperm, hr0⟩
    · have hov : overwrite st.extents e = e :=
        overwrite_full _ _ (by rw [hlen, hel, statLen_of_ne r hr])
      refine ⟨?_, hpl, hsl, ?_, ?_, hperm, fun hc => absurd hc hr⟩
      · show (overwrite st.extents e).length = statLen r
        rw [hov, hlen, statLen_of_ne r hr]
      · intro x hx
        have hx2 : x ∈ overwrite st.extents e := hx
        rw [hov] at hx2
        exact Nat.pos_of_ne_zero fun hz => h0 (hz ▸ hx2)
      · show (overwrite st.extents e).prod ≤ mx
        rw [hov]
        exact hpr
  have hrg := recalc_good r mx _ hwf1
  refine ⟨recalculate_strides r { st with extents := overwrite st.extents e },
    ?_, ?_, rfl, hrg.2.2, hrg.1, hrg.2.1⟩
  · rw [extents_set, hup]
    rfl
  · show (overwrite st.extents e).take r = e
    exact take_overwrite st.extents e r hel hlen

/-- A successful `priorities(p)` call: the committed state has
`priorities() == p`, untouched extents, a correct stride cache,
`required_size()` the product of the extents, and is well formed. -/
lemma priorities_set_ok_full (r mx : Nat) (st : MIB) (p : List Nat)
    (h : WF r mx st) (hlen : p.length = r)
    (hperm : List.Perm p (List.range r)) :
    ∃ st2, priorities_set r st p = .ok st2 ∧
      prioritiesGet r st2 = p ∧ st2.extents = st.extents ∧
      WF r mx st2 ∧ stridesSpec r st2 ∧
      required_size st2 = (extentsGet r st2).prod := by
  obtain ⟨hel, hpl, hsl, hpos, hmxp, hperm0, hr0⟩ := h
  have hup := update_priorities_ok r st p hperm
  have hwf1 : WF r mx { st with priorities := overwrite st.priorities p } := by
    by_cases hr : r = 0
    · have hp : p = [] := List.length_eq_zero.1 (by omega)
      have hid : { st with priorities := overwrite st.priorities p } = st := by
        rw [hp, overwrite_nil]
      rw [hid]
      exact ⟨hel, hpl, hsl, hpos, hmxp, hperm0, hr0⟩
    · have hov : overwrite st.priorities p = p :=
        overwrite_full _ _ (by rw [hlen, hpl, statLen_of_ne r hr])
      refine ⟨hel, ?_, hsl, hpos, hmxp, ?_, fun hc => absurd hc hr⟩
      · show (overwrite st.priorities p).length = statLen r
        rw [hov, hlen, statLen_of_ne r hr]
      · show List.Perm (overwrite st.priorities p) (List.range (statLen r))
        rw [hov, statLen_of_ne r hr]
        exact hperm
  have hrg := recalc_good r mx _ hwf1
  refine ⟨recalculate_strides r
      { st with priorities := overwrite st.priorities p },
    ?_, ?_, rfl, hrg.2.2, hrg.1, hrg.2.1⟩
  · rw [priorities_set, hup]
    rfl
  · show (overwrite st.priorities p).take r = p
    exact take_overwrite st.priorities p r hpl hlen

/-! The combined setter `extents_and_priorities` and its atomicity. -/

lemma eap_eq_err1 (r mx : Nat) (st : MIB) (e p : List Nat) (e1 : MaErr)
    (hu : update_extents mx st e = .error e1) :
    extents_and_priorities r mx st e p = (st, some e1) := by
  rw [extents_and_priorities, hu]

lemma eap_eq_err2 (r mx : Nat) (st st1 st3 : MIB) (e p : List Nat)
    (e2 : MaErr) (hu : update_extents mx st e = .ok st1)
    (hp2 : update_priorities r st1 p = .error e2)
    (hrb : update_extents mx st1 (extentsGet r st) = .ok st3) :
    extents_and_priorities r mx st e p = (st3, some e2) := by
  simp only [extents_and_priorities, hu, hp2, hrb]

lemma eap_eq_ok (r mx : Nat) (st st1 st2 : MIB) (e p : List Nat)
    (hu : update_extents mx st e = .ok st1)
    (hp2 : update_priorities r st1 p = .ok st2) :
    extents_and_priorities r mx st e p =
      (recalculate_strides r st2, none) := by
  simp only [extents_and_priorities, hu, hp2]

/-- On any failing `extents_and_priorities` call the observable state is
the pre-call state: either nothing had been committed yet, or the
priorities validation failed and the tentatively applied extents were
rolled back from the saved copy. -/
lemma eap_fail (r mx : Nat) (st : MIB) (e p : List Nat)
    (h : WF r mx st) (hlen : e.length = r) (hmx : 0 < mx) :
    ∀ err, (extents_and_priorities r mx st e p).2 = some err →
      (extents_and_priorities r mx st e p).1 = st := by
  obtain ⟨hel, hpl, hsl, hpos, hmxp, hperm, hr0⟩ := h
  intro err
  cases hu : update_extents mx st e with
  | error e1 =>
    rw [eap_eq_err1 r mx st e p e1 hu]
    intro _
    rfl
  | ok st1 =>
    cases hp2 : update_priorities r st1 p with
    | ok st2 =>
      rw [eap_eq_ok r mx st st1 st2 e p hu hp2]
      intro hcon
      exact absurd hcon (by simp)
    | error e2 =>
      obtain ⟨hst1, h0, hpr⟩ := update_extents_ok_inv mx st st1 e hmx hu
      have hsave0 : 0 ∉ extentsGet r st := by
        intro hin
        have h2 : (0 : Nat) ∈ st.extents := List.mem_of_mem_take hin
        have := hpos 0 h2
        omega
      have hsavepr : (extentsGet r st).prod ≤ mx := by
        by_cases hr : r = 0
        · rw [extentsGet, hr, List.take_zero]
          simpa using hmx
        · rw [extentsGet, show st.extents.take r = st.extents from by
            rw [← show st.extents.length = r from by
              rw [hel, statLen_of_ne r hr], List.take_length]]
          exact hmxp
      have hrb := update_extents_ok mx st1 (extentsGet r st) hsave0 hsavepr hmx
      rw [eap_eq_err2 r mx st st1 _ e p e2 hu hp2 hrb]
      intro _
      show { st1 with extents := overwrite st1.extents (extentsGet r st) } = st
      rw [hst1]
      show { st with
        extents := overwrite (overwrite st.extents e) (st.extents.take r) } = st
      rw [overwrite_restore st.extents e r hel hlen]

/-- A successful `extents_and_priorities(e, p)` call commits both
attributes and recomputes a correct stride cache on a well-formed state. -/
lemma eap_ok (r mx : Nat) (st : MIB) (e p : List Nat)
    (h : WF r mx st) (hlen : e.length = r) (hplen : p.length = r)
    (hmx : 0 < mx)
    (hres : (extents_and_priorities r mx st e p).2 = none) :
    extentsGet r (extents_and_priorities r mx st e p).1 = e ∧
    prioritiesGet r (extents_and_priorities r mx st e p).1 = p ∧
    WF r mx (extents_and_priorities r mx st e p).1 ∧
    stridesSpec r (extents_and_priorities r mx st e p).1 ∧
    required_size (extents_and_priorities r mx st e p).1 =
      (extentsGet r (extents_and_priorities r mx st e p).1).prod := by
  have hwf := h
  obtain ⟨hel, hpl, hsl, hpos, hmxp, hperm, hr0⟩ := h
  cases hu : update_extents mx st e with
  | error e1 =>
    rw [eap_eq_err1 r mx st e p e1 hu] at hres
    exact absurd hres (by simp)
  | ok st1 =>
    cases hp2 : update_priorities r st1 p with
    | error e2 =>
      obtain ⟨hst1, h0, hpr⟩ := update_extents_ok_inv mx st st1 e hmx hu
      have hsave0 : 0 ∉ extentsGet r st := by
        intro hin
        have h2 : (0 : Nat) ∈ st.extents := List.mem_of_mem_take hin
        have := hpos 0 h2
        omega
      have hsavepr : (extentsGet r st).prod ≤ mx := by
        by_cases hr : r = 0
        · rw [extentsGet, hr, List.take_zero]
          simpa using hmx
        · rw [extentsGet, show st.extents.take r = st.extents from by
            rw [← show st.extents.length = r from by
              rw [hel, statLen_of_ne r hr], List.take_length]]
          exact hmxp
      have hrb := update_extents_ok mx st1 (extentsGet r st) hsave0 hsavepr hmx
      rw [eap_eq_err2 r mx st st1 _ e p e2 hu hp2 hrb] at hres
      exact absurd hres (by simp)
    | ok st2 =>
      obtain ⟨hst1, h0, hpr⟩ := update_extents_ok_inv mx st st1 e hmx hu
      obtain ⟨hst2, hperm2⟩ := update_priorities_ok_inv r st1 st2 p hp2
      have hst2b : st2 =
          ⟨overwrite st.extents e, overwrite st.priorities p,
            st.strides⟩ := by
        rw [hst2, hst1]
      have hwf2 : WF r mx st2 := by
        rw [hst2b]
        by_cases hr : r = 0
        · have he : e = [] := List.length_eq_zero.1 (by omega)
          have hp : p = [] := List.length_eq_zero.1 (by omega)
          have hid : (⟨overwrite st.extents e, overwrite st.priorities p,
              st.strides⟩ : MIB) = st := by
            rw [he, hp, overwrite_nil, overwrite_nil]
          rw [hid]
          exact hwf
        · have hove : overwrite st.extents e = e :=
            overwrite_full _ _ (by rw [hlen, hel, statLen_of_ne r hr])
          have hovp : overwrite st.priorities p = p :=
            overwrite_full _ _ (by rw [hplen, hpl, statLen_of_ne r hr])
          refine ⟨?_, ?_, hsl, ?_, ?_, ?_, fun hc => absurd hc hr⟩
          · show (overwrite st.extents e).length = statLen r
            rw [hove, hlen, statLen_of_ne r hr]
          · show (overwrite st.priorities p).length = statLen r
            rw [hovp, hplen, statLen_of_ne r hr]
          · intro x hx
            have hx2 : x ∈ overwrite st.extents e := hx
            rw [hove] at hx2
            exact Nat.pos_of_ne_zero fun hz => h0 (hz ▸ hx2)
          · show (overwrite st.extents e).prod ≤ mx
            rw [hove]
            exact hpr
          · show List.Perm (overwrite st.priorities p)
              (List.range (statLen r))
            rw [hovp, statLen_of_ne r hr]
            exact hperm2
      have hrg := recalc_good r mx st2 hwf2
      rw [eap_eq_ok r mx st st1 st2 e p hu hp2]
      refine ⟨?_, ?_, hrg.2.2, hrg.1, hrg.2.1⟩
      · show st2.extents.take r = e
        rw [hst2b]
        exact take_overwrite st.extents e r hel hlen
      · show st2.priorities.take r = p
        rw [hst2b]
        exact take_overwrite st.priorities p r hpl hplen

lemma extents_set_ok_inv (r mx : Nat) (st st2 : MIB) (e : List Nat)
    (h : extents_set r mx st e = .ok st2) :
    ∃ st1, update_extents mx st e = .ok st1 ∧
      st2 = recalculate_strides r st1 := by
  rw [extents_set] at h
  cases hu : update_extents mx st e with
  | error e1 =>
    rw [hu] at h
    exact absurd h (by simp [Except.map])
  | ok st1 =>
    rw [hu] at h
    refine ⟨st1, rfl, ?_⟩
    simp only [Except.map] at h
    injection h with h2
    exact h2.symm

lemma priorities_set_ok_inv (r : Nat) (st st2 : MIB) (p : List Nat)
    (h : priorities_set r st p = .ok st2) :
    ∃ st1, update_priorities r st p = .ok st1 ∧
      st2 = recalculate_strides r st1 := by
  rw [priorities_set] at h
  cases hu : update_priorities r st p with
  | error e1 =>
    rw [hu] at h
    exact absurd h (by simp [Except.map])
  | ok st1 =>
    rw [hu] at h
    refine ⟨st1, rfl, ?_⟩
    simp only [Except.map] at h
    injection h with h2
    exact h2.symm

lemma resizeExtents_facts (r csize mx : Nat) (hcs : csize ≤ mx)
    (hmx : 0 < mx) :
    (resizeExtents r csize).length = r ∧ 0 ∉ resizeExtents r csize ∧
      (resizeExtents r csize).prod ≤ mx := by
  cases r with
  | zero =>
    refine ⟨rfl, by simp [resizeExtents], ?_⟩
    show ([] : List Nat).prod ≤ mx
    simpa using hmx
  | succ m =>
    have hre : resizeExtents (m + 1) csize =
        (if 0 < m + 1 ∧ 0 < csize then csize else 1) :: List.replicate m 1 := by
      rw [resizeExtents, List.replicate_succ, List.set_cons_zero]
    rw [hre]
    refine ⟨by simp, ?_, ?_⟩
    · intro hmem
      rcases List.mem_cons.1 hmem with hh | ht
      · by_cases hc : 0 < csize
        · rw [if_pos ⟨Nat.succ_pos m, hc⟩] at hh
          omega
        · rw [if_neg (by omega)] at hh
          omega
      · have := List.eq_of_mem_replicate ht
        omega
    · rw [List.prod_cons, List.prod_replicate, one_pow, Nat.mul_one]
      split <;> omega

/-! Claims about the dynamically-shaped adapter. -/

/-- C3: after construction and after every successful call to `extents`,
`priorities` or `extents_and_priorities`, the cached stride of each
dimension is the product of the extents of all dimensions less major than
it under the current priority permutation, and consequently
`required_size()` is exactly the product of the current extents (1 when
the rank is 0). -/
theorem claim_C3 :
    (∀ (r mx csize : Nat), 0 < mx → csize ≤ mx →
      ∃ st, multiarray_ctor r mx csize = .ok st ∧ stridesSpec r st ∧
        required_size st = (extentsGet r st).prod) ∧
    (∀ (r mx : Nat) (st st2 : MIB) (e : List Nat), WF r mx st →
      e.length = r → 0 < mx → extents_set r mx st e = .ok st2 →
      stridesSpec r st2 ∧ required_size st2 = (extentsGet r st2).prod) ∧
    (∀ (r mx : Nat) (st st2 : MIB) (p : List Nat), WF r mx st →
      p.length = r → priorities_set r st p = .ok st2 →
      stridesSpec r st2 ∧ required_size st2 = (extentsGet r st2).prod) ∧
    (∀ (r mx : Nat) (st : MIB) (e p : List Nat), WF r mx st →
      e.length = r → p.length = r → 0 < mx →
      (extents_and_priorities r mx st e p).2 = none →
      stridesSpec r (extents_and_priorities r mx st e p).1 ∧
      required_size (extents_and_priorities r mx st e p).1 =
        (extentsGet r (extents_and_priorities r mx st e p).1).prod) := by
  refine ⟨?_, ?_, ?_, ?_⟩
  · intro r mx csize hmx hcs
    obtain ⟨hrl, hr0, hrp⟩ := resizeExtents_facts r csize mx hcs hmx
    obtain ⟨st2, hok, _, _, _, hss, hreq⟩ :=
      extents_set_ok_full r mx (mibInit r) (resizeExtents r csize)
        (wf_init r mx hmx) hrl hmx hr0 hrp
    exact ⟨st2, hok, hss, hreq⟩
  · intro r mx st st2 e hwf hlen hmx hok
    obtain ⟨st1, hu, _⟩ := extents_set_ok_inv r mx st st2 e hok
    obtain ⟨_, h0, hpr⟩ := update_extents_ok_inv mx st st1 e hmx hu
    obtain ⟨st2b, hokb, _, _, _, hss, hreq⟩ :=
      extents_set_ok_full r mx st e hwf hlen hmx h0 hpr
    have heq : st2 = st2b := by
      rw [hok] at hokb
      injection hokb
    rw [heq]
    exact ⟨hss, hreq⟩
  · intro r mx st st2 p hwf hlen hok
    obtain ⟨st1, hu, _⟩ := priorities_set_ok_inv r st st2 p hok
    obtain ⟨_, hperm⟩ := update_priorities_ok_inv r st st1 p hu
    obtain ⟨st2b, hokb, _, _, _, hss, hreq⟩ :=
      priorities_set_ok_full r mx st p hwf hlen hperm
    have heq : st2 = st2b := by
      rw [hok] at hokb
      injection hokb
    rw [heq]
    exact ⟨hss, hreq⟩
  · intro r mx st e p hwf hlen hplen hmx hres
    have h2 := eap_ok r mx st e p hwf hlen hplen hmx hres
    exact ⟨h2.2.2.2.1, h2.2.2.2.2⟩

/-- Witness for C3: `extents({2,3})` on a fresh rank-2 adapter commits the
state with strides `{3,1}` satisfying the stride invariant, and
`required_size()` is the extents' product. -/
theorem claim_C3_witness :
    stridesSpec 2 ⟨[2, 3], [0, 1], [3, 1]⟩ ∧
    required_size ⟨[2, 3], [0, 1], [3, 1]⟩ =
      (extentsGet 2 ⟨[2, 3], [0, 1], [3, 1]⟩).prod :=
  claim_C3.2.1 2 1000 (mibInit 2) ⟨[2, 3], [0, 1], [3, 1]⟩ [2, 3]
    (by decide) (by decide) (by decide) (by decide)

/-- C5: `extents_and_priorities(e, p)` is atomic: on any failure the
observable state is unchanged (the whole index state, hence `extents()`,
`priorities()`, `required_size()` and every accessor offset, equals the
pre-call state, the tentative extents change having been rolled back); on
success `extents() == e` and `priorities() == p` with the stride cache
recomputed correctly. -/
theorem claim_C5 :
    ∀ (r mx : Nat) (st : MIB) (e p : List Nat), WF r mx st →
      e.length = r → p.length = r → 0 < mx →
      (∀ err, (extents_and_priorities r mx st e p).2 = some err →
        (extents_and_priorities r mx st e p).1 = st) ∧
      ((extents_and_priorities r mx st e p).2 = none →
        extentsGet r (extents_and_priorities r mx st e p).1 = e ∧
        prioritiesGet r (extents_and_priorities r mx st e p).1 = p ∧
        stridesSpec r (extents_and_priorities r mx st e p).1) := by
  intro r mx st e p hwf hlen hplen hmx
  refine ⟨eap_fail r mx st e p hwf hlen hmx, fun hres => ?_⟩
  have h2 := eap_ok r mx st e p hwf hlen hplen hmx hres
  exact ⟨h2.1, h2.2.1, h2.2.2.2.1⟩

/-- Witness for C5: with extents `{2,3}` and the bad priority list `{1,1}`
the call fails and the fresh rank-2 adapter state is untouched; with the
valid pair `{2,3}`, `{1,0}` it commits both. -/
theorem claim_C5_witness :
    (extents_and_priorities 2 1000 (mibInit 2) [2, 3] [1, 1]).1 =
      mibInit 2 ∧
    prioritiesGet 2
      (extents_and_priorities 2 1000 (mibInit 2) [2, 3] [1, 0]).1 = [1, 0] :=
  ⟨(claim_C5 2 1000 (mibInit 2) [2, 3] [1, 1] (by decide) (by decide)
      (by decide) (by decide)).1 .badPriorityPerm (by decide),
   ((claim_C5 2 1000 (mibInit 2) [2, 3] [1, 0] (by decide) (by decide)
      (by decide) (by decide)).2 (by decide)).2.1⟩

/-- C6: the `extents(e)` setter raises the invalid-range error iff some
entry of `e` is zero; otherwise raises the overflow error iff the exact
mathematical product of the entries exceeds the maximum value of the index
type; otherwise it commits, with `extents() == e` afterward. -/
theorem claim_C6 :
    ∀ (r mx : Nat) (st : MIB) (e : List Nat), WF r mx st → e.length = r →
      0 < mx →
      (extents_set r mx st e = .error .zeroExtent ↔ 0 ∈ e) ∧
      (0 ∉ e →
        (extents_set r mx st e = .error .extentOverflow ↔ mx < e.prod)) ∧
      (0 ∉ e → e.prod ≤ mx →
        ∃ st2, extents_set r mx st e = .ok st2 ∧ extentsGet r st2 = e) := by
  intro r mx st e hwf hlen hmx
  refine ⟨?_, ?_, ?_⟩
  · rw [extents_set_error_iff]
    exact update_extents_zero_iff mx st e
  · intro h0
    rw [extents_set_error_iff]
    exact update_extents_overflow_iff mx st e h0 hmx
  · intro h0 hpr
    obtain ⟨st2, hok, hget, _, _, _, _⟩ :=
      extents_set_ok_full r mx st e hwf hlen hmx h0 hpr
    exact ⟨st2, hok, hget⟩

/-- Witness for C6: on a fresh rank-2 adapter, `extents({0,3})` raises the
zero-extent error and `extents({20,30})` overflows an index type whose
maximum is 100. -/
theorem claim_C6_witness :
    extents_set 2 1000 (mibInit 2) [0, 3] = .error .zeroExtent ∧
    extents_set 2 100 (mibInit 2) [20, 30] = .error .extentOverflow :=
  ⟨(claim_C6 2 1000 (mibInit 2) [0, 3] (by decide) (by decide)
      (by decide)).1.2 (by decide),
   ((claim_C6 2 100 (mibInit 2) [20, 30] (by decide) (by decide)
      (by decide)).2.1 (by decide)).2 (by decide)⟩

/-- C7: for a rank-`r` adapter, `priorities(p)` raises the
invalid-priority-value error iff some entry of `p` is `≥ r`; raises the
invalid-permutation error iff all entries are in range but `p` is not a
permutation of `0..r-1`; and otherwise succeeds with `priorities() == p`
afterward. -/
theorem claim_C7 :
    ∀ (r mx : Nat) (st : MIB) (p : List Nat), WF r mx st → p.length = r →
      (priorities_set r st p = .error .badPriorityValue ↔
        ∃ x ∈ p, r ≤ x) ∧
      ((∀ x ∈ p, x < r) →
        (priorities_set r st p = .error .badPriorityPerm ↔
          ¬ List.Perm p (List.range r))) ∧
      (List.Perm p (List.range r) →
        ∃ st2, priorities_set r st p = .ok st2 ∧
          prioritiesGet r st2 = p) := by
  intro r mx st p hwf hlen
  refine ⟨?_, ?_, ?_⟩
  · rw [priorities_set_error_iff]
    exact update_priorities_value_iff r st p
  · intro hval
    rw [priorities_set_error_iff]
    exact update_priorities_perm_iff r st p hval
  · intro hperm
    obtain ⟨st2, hok, hget, _, _, _, _⟩ :=
      priorities_set_ok_full r mx st p hwf hlen hperm
    exact ⟨st2, hok, hget⟩

/-- Witness for C7 (Scenario D): on a rank-2 adapter, `priorities({1,1})`
raises the permutation error and `priorities({0,5})` the value error. -/
theorem claim_C7_witness :
    priorities_set 2 (mibInit 2) [1, 1] = .error .badPriorityPerm ∧
    priorities_set 2 (mibInit 2) [0, 5] = .error .badPriorityValue :=
  ⟨((claim_C7 2 1000 (mibInit 2) [1, 1] (by decide) (by decide)).2.1
      (by decide)).2 (by decide),
   (claim_C7 2 1000 (mibInit 2) [0, 5] (by decide) (by decide)).1.2
      (by decide)⟩

/-! The `apply` traversal and the odometer index advance. -/

/-- A coordinate tuple that is currently in range: one coordinate per
dimension, each strictly below its extent (the precondition of
`advance_index_pack`). -/
def Valid (r : Nat) (st : MIB) (idx : List Nat) : Prop :=
  idx.length = r ∧ ∀ d, d < r → idx.getD d 0 < st.extents.getD d 0

instance (r : Nat) (st : MIB) (idx : List Nat) : Decidable (Valid r st idx) := by
  unfold Valid
  infer_instance

/-- Unfolded form of one `advance_index_pack` loop body. -/
lemma advStepD_eval (st : MIB) (idx : List Nat) (b : Bool) (d : Nat) :
    advStepD st (idx, b) d =
      (if st.extents.getD d 0 ≤ idx.getD d 0 + (if b then 1 else 0)
        then idx.set d 0
        else idx.set d (idx.getD d 0 + (if b then 1 else 0)),
       decide (st.extents.getD d 0 ≤ idx.getD d 0 + (if b then 1 else 0))) :=
  rfl

/-- With the carry dead, a loop body leaves an in-range tuple unchanged. -/
lemma advStepD_false (st : MIB) (idx : List Nat) (d : Nat)
    (h : idx.getD d 0 < st.extents.getD d 0) (hdi : d < idx.length) :
    advStepD st (idx, false) d = (idx, false) := by
  rw [advStepD_eval]
  have h0 : (if (false : Bool) then (1 : Nat) else 0) = 0 := rfl
  rw [h0, Nat.add_zero, if_neg (by omega), set_getD_self idx d 0 hdi,
    decide_eq_false (by omega : ¬ st.extents.getD d 0 ≤ idx.getD d 0)]

/-- A loop body that increments and wraps the current dimension. -/
lemma advStepD_carry (st : MIB) (idx : List Nat) (d : Nat)
    (h : st.extents.getD d 0 ≤ idx.getD d 0 + 1) :
    advStepD st (idx, true) d = (idx.set d 0, true) := by
  rw [advStepD_eval]
  have h1 : (if (true : Bool) then (1 : Nat) else 0) = 1 := rfl
  rw [h1, if_pos h, decide_eq_true h]

/-- A loop body that increments the current dimension and kills the
carry. -/
lemma advStepD_stop (st : MIB) (idx : List Nat) (d : Nat)
    (h : ¬ st.extents.getD d 0 ≤ idx.getD d 0 + 1) :
    advStepD st (idx, true) d = (idx.set d (idx.getD d 0 + 1), false) := by
  rw [advStepD_eval]
  have h1 : (if (true : Bool) then (1 : Nat) else 0) = 1 := rfl
  rw [h1, if_neg h, decide_eq_false h]

/-- An in-range tuple stays in range after setting one in-range
coordinate to an in-range value. -/
lemma valid_set (r : Nat) (st : MIB) (idx : List Nat) (d v : Nat)
    (hv : Valid r st idx) (hd : d < r) (hval : v < st.extents.getD d 0) :
    Valid r st (idx.set d v) := by
  have hdi : d < idx.length := by rw [hv.1]; exact hd
  refine ⟨by rw [List.length_set]; exact hv.1, ?_⟩
  intro q hq
  by_cases hqd : q = d
  · subst hqd
    rw [getD_set_eq _ _ _ _ hdi]
    exact hval
  · rw [getD_set_ne _ _ _ _ _ fun hh => hqd hh.symm]
    exact hv.2 q hq

/-- Once the carry has died out, the rest of the `advance_index_pack` loop
changes nothing. -/
lemma foldD_false (st : MIB) (r : Nat) :
    ∀ (ds idx : List Nat), (∀ d ∈ ds, d < r) → Valid r st idx →
      ds.foldl (advStepD st) (idx, false) = (idx, false) := by
  intro ds
  induction ds with
  | nil => intro idx _ _; rfl
  | cons d ds1 ih =>
    intro idx hds hv
    have hd : d < r := hds d (by simp)
    have hlt : idx.getD d 0 < st.extents.getD d 0 := hv.2 d hd
    have hdi : d < idx.length := by rw [hv.1]; exact hd
    rw [List.foldl_cons, advStepD_false st idx d hlt hdi]
    exact ih idx (fun x hx => hds x (by simp [hx])) hv

/-- The C++ loop of `advance_index_pack` computes exactly the spec's
odometer advance on an in-range tuple. -/
lemma foldD_eq_spec (st : MIB) (r : Nat) :
    ∀ (ds idx : List Nat), (∀ d ∈ ds, d < r) → Valid r st idx →
      (ds.foldl (advStepD st) (idx, true)).1 = specAdvanceGo st idx ds := by
  intro ds
  induction ds with
  | nil => intro idx _ _; rfl
  | cons d ds1 ih =>
    intro idx hds hv
    have hd : d < r := hds d (by simp)
    have hdi : d < idx.length := by rw [hv.1]; exact hd
    have hext : 0 < st.extents.getD d 0 :=
      Nat.lt_of_le_of_lt (Nat.zero_le _) (hv.2 d hd)
    rw [List.foldl_cons, specAdvanceGo]
    by_cases hc : st.extents.getD d 0 ≤ idx.getD d 0 + 1
    · rw [advStepD_carry st idx d hc, if_pos hc]
      exact ih _ (fun x hx => hds x (by simp [hx]))
        (valid_set r st idx d 0 hv hd hext)
    · rw [advStepD_stop st idx d hc, if_neg hc]
      rw [foldD_false st r ds1 _ (fun x hx => hds x (by simp [hx]))
        (valid_set r st idx d _ hv hd (by omega))]

/-- Every dimension named in the (reversed, truncated) priority list is
below the rank. -/
lemma take_priorities_mem_lt (r mx : Nat) (st : MIB) (hwf : WF r mx st) :
    ∀ d ∈ (st.priorities.take r).reverse, d < r := by
  intro d hd
  rw [List.mem_reverse] at hd
  by_cases hr : r = 0
  · rw [hr, List.take_zero] at hd
    simp at hd
  · have h3 : d ∈ st.priorities := List.mem_of_mem_take hd
    have h4 := List.mem_range.1 (hwf.2.2.2.2.2.1.mem_iff.1 h3)
    rw [statLen_of_ne r hr] at h4
    exact h4

/-- `advance_index_pack` agrees with the spec's odometer advance on every
in-range tuple of a well-formed adapter. -/
lemma advance_eq_spec (r mx : Nat) (st : MIB) (idx : List Nat)
    (hwf : WF r mx st) (hv : Valid r st idx) :
    (advance_index_pack r st idx).1 = specAdvance r st idx := by
  have hpl : st.priorities.length = statLen r := hwf.2.1
  rw [advance_index_pack, specAdvance]
  have h1 : (List.range r).reverse.foldl
      (fun acc i => advStepD st acc (st.priorities.getD i 0)) (idx, true) =
      ((List.range r).reverse.map fun i => st.priorities.getD i 0).foldl
        (advStepD st) (idx, true) := by
    rw [List.foldl_map]
  have h2 : (List.range r).reverse.map (fun i => st.priorities.getD i 0) =
      (st.priorities.take r).reverse := by
    rw [← map_range_getD st.priorities r
      (by rw [hpl]; unfold statLen; split <;> omega), List.map_reverse]
  rw [h1, h2]
  exact foldD_eq_spec st r _ idx (take_priorities_mem_lt r mx st hwf) hv

/-- The spec's odometer advance keeps a tuple in range. -/
lemma specAdvanceGo_valid (st : MIB) (r : Nat) :
    ∀ (ds idx : List Nat), (∀ d ∈ ds, d < r) → Valid r st idx →
      Valid r st (specAdvanceGo st idx ds) := by
  intro ds
  induction ds with
  | nil => intro idx _ hv; rw [specAdvanceGo]; exact hv
  | cons d ds1 ih =>
    intro idx hds hv
    have hd : d < r := hds d (by simp)
    have hext : 0 < st.extents.getD d 0 :=
      Nat.lt_of_le_of_lt (Nat.zero_le _) (hv.2 d hd)
    rw [specAdvanceGo]
    by_cases hc : st.extents.getD d 0 ≤ idx.getD d 0 + 1
    · rw [if_pos hc]
      exact ih _ (fun x hx => hds x (by simp [hx]))
        (valid_set r st idx d 0 hv hd hext)
    · rw [if_neg hc]
      exact valid_set r st idx d _ hv hd (by omega)

lemma specAdvance_valid (r mx : Nat) (st : MIB) (idx : List Nat)
    (hwf : WF r mx st) (hv : Valid r st idx) :
    Valid r st (specAdvance r st idx) := by
  rw [specAdvance]
  exact specAdvanceGo_valid st r _ idx (take_priorities_mem_lt r mx st hwf) hv

/-- The all-zero start tuple of `first_index_pack` is in range. -/
lemma zeros_valid (r mx : Nat) (st : MIB) (hwf : WF r mx st) :
    Valid r st (List.replicate r 0) := by
  obtain ⟨hel, _, _, hpos, _, _, _⟩ := hwf
  refine ⟨List.length_replicate .., ?_⟩
  intro d hd
  have hz : (List.replicate r (0 : Nat)).getD d 0 = 0 := by
    simp [List.getD_eq_getElem?_getD, List.getElem?_replicate, hd]
  rw [hz]
  have hdl : d < st.extents.length := by
    rw [hel]
    unfold statLen
    split <;> omega
  exact hpos _ (getD_mem st.extents d 0 hdl)

/-- Unrolling the `apply` loop: the j-th call sees the element `pos + j`
positions from the beginning and the j-th odometer iterate of the start
tuple. -/
lemma applyGo_spec {α : Type} [Inhabited α] (r mx : Nat) (st : MIB)
    (c : List α) (hwf : WF r mx st) :
    ∀ (limit pos : Nat) (idx : List Nat), Valid r st idx →
      applyGo r st c limit pos idx =
        (List.range limit).map fun j =>
          (c.getD (pos + j) default, (specAdvance r st)^[j] idx) := by
  intro limit
  induction limit with
  | zero => intro pos idx _; simp [applyGo]
  | succ m ih =>
    intro pos idx hv
    rw [applyGo, List.range_succ_eq_map, List.map_cons,
      advance_eq_spec r mx st idx hwf hv,
      ih (pos + 1) (specAdvance r st idx)
        (specAdvance_valid r mx st idx hwf hv), List.map_map]
    have htail : (List.range m).map
        ((fun j => (c.getD (pos + j) default, (specAdvance r st)^[j] idx)) ∘
          Nat.succ) =
        (List.range m).map fun j =>
          (c.getD (pos + 1 + j) default,
            (specAdvance r st)^[j] (specAdvance r st idx)) := by
      apply List.map_congr_left
      intro j _
      simp only [Function.comp_apply, Nat.succ_eq_add_one,
        Function.iterate_succ_apply]
      have harith : pos + (j + 1) = pos + 1 + j := by omega
      rw [harith]
    rw [htail]
    simp

/-- C4: `apply(fn)` invokes `fn` exactly `min(required_size(), size())`
times, on consecutive elements starting from the container's beginning,
and the coordinate tuple passed with the j-th call is the j-th tuple of
the mixed-radix odometer counting sequence under the current extents and
priorities: it starts all-zero and advances by incrementing the
least-major dimension, resetting a coordinate and carrying into the next
more major dimension whenever it reaches its extent. -/
theorem claim_C4 :
    ∀ {α : Type} [Inhabited α] (r mx : Nat) (st : MIB) (c : List α),
      WF r mx st →
      applyRun r st c =
        (List.range (min (required_size st) c.length)).map
          (fun j => (c.getD j default,
            (specAdvance r st)^[j] (List.replicate r 0))) ∧
      (applyRun r st c).length = min (required_size st) c.length := by
  intro α inst r mx st c hwf
  have h1 : applyRun r st c =
      (List.range (min (required_size st) c.length)).map
        (fun j => (c.getD j default,
          (specAdvance r st)^[j] (List.replicate r 0))) := by
    rw [applyRun, applyGo_spec r mx st c hwf _ 0 _ (zeros_valid r mx st hwf)]
    simp
  refine ⟨h1, ?_⟩
  rw [h1]
  simp

/-- Witness for C4: a 2×3 row-major adapter over a 7-element container
visits exactly 6 elements with row-major odometer coordinates. -/
theorem claim_C4_witness :
    applyRun 2 ⟨[2, 3], [0, 1], [3, 1]⟩ [10, 20, 30, 40, 50, 60, 70] =
      (List.range
          (min (required_size ⟨[2, 3], [0, 1], [3, 1]⟩) 7)).map
        (fun j => ([10, 20, 30, 40, 50, 60, 70].getD j default,
          (specAdvance 2 ⟨[2, 3], [0, 1], [3, 1]⟩)^[j]
            (List.replicate 2 0))) :=
  (claim_C4 2 100 ⟨[2, 3], [0, 1], [3, 1]⟩ [10, 20, 30, 40, 50, 60, 70]
    (by decide)).1

end MultiArr
